import Mathlib

/-!
Shallow embedding of getConcertInfo.py, verified against the program's
natural-language specification.

Python strings are modelled as `List Char`, fallible Python operations
(`None.group()` attribute errors, `IndexError`, `int()` value errors) as
`Option`, and curses output as lists of abstract draw operations.
-/

set_option autoImplicit false

/-- Python strings are modelled as lists of characters. -/
abbrev Str : Type := List Char

/-- Convenience conversion from Lean string literals. -/
def strL (s : String) : Str := s.toList

/-! ## getMonth (source lines 25-30) -/

/-- The fixed twelve-entry month table of `getMonth`. -/
def months : List Str :=
  [strL "January", strL "February", strL "March", strL "April",
   strL "May", strL "June", strL "July", strL "August",
   strL "September", strL "October", strL "November", strL "December"]

/-- `getMonth(n)` returns `months[(int(n) - 1) % 12]`.  The list indexing is
modelled with `get?`, where `none` is an out-of-bounds `IndexError`.
Python's `%` on a positive modulus matches `Int.emod`. -/
def getMonth (n : Int) : Option Str := months.get? ((n - 1) % 12).toNat

/-! ## Python int() conversion, used for the month field at render time -/

/-- Numeric value of an ASCII digit. -/
def digitVal (c : Char) : Nat := c.toNat - 48

/-- Decimal value of a digit string. -/
def digitsToNat (s : Str) : Nat := s.foldl (fun a c => a * 10 + digitVal c) 0

/-- Python `int(s)` on the strings this program can produce: an optional
sign followed by at least one digit; anything else raises, modelled as
`none`. -/
def pyInt (s : Str) : Option Int :=
  match s with
  | [] => none
  | c :: rest =>
    if c = '-' then
      if rest = [] then none
      else if rest.all Char.isDigit then some (-(digitsToNat rest : Int)) else none
    else if c = '+' then
      if rest = [] then none
      else if rest.all Char.isDigit then some ((digitsToNat rest : Int)) else none
    else if (c :: rest).all Char.isDigit then some ((digitsToNat (c :: rest) : Int)) else none

/-! ## formatConcert (source lines 32-38) -/

/-- Helper for `pySplit`: prepend a character to the first chunk. -/
def consHead (c : Char) : List Str → List Str
  | [] => [[c]]
  | p :: ps => (c :: p) :: ps

/-- Python `s.split(sep)` with an explicit separator: empty chunks are kept
and the result is never empty. -/
def pySplit (sep : Char) : Str → List Str
  | [] => [[]]
  | c :: t => if c = sep then [] :: pySplit sep t else consHead c (pySplit sep t)

/-- The concert record packed by `formatConcert`, with the fields of the
`details` list: venue, year, month, date (day of month), day (weekday),
cost. -/
structure Concert where
  venue : Str
  year : Str
  month : Str
  date : Str
  day : Str
  cost : Str
deriving DecidableEq

/-- `formatConcert(day, date, venue, cost)` splits the date on `-` and packs
`[venue, date[2], date[0], date[1], day, cost]` against
`["venue", "year", "month", "date", "day", "cost"]`.  Fewer than three
components would raise `IndexError`, modelled as `none`. -/
def formatConcert (day date venue cost : Str) : Option Concert :=
  match pySplit '-' date with
  | m :: d :: y :: _ => some ⟨venue, y, m, d, day, cost⟩
  | _ => none

/-! ## The five regex searches of concertList (source lines 64-78)

Each pattern is a fixed lookbehind marker followed by a simple body, so
`re.search` is modelled by scanning, left to right, every position where the
marker just ended and attempting the body there. -/

/-- Boolean list prefix test. -/
def isPrefixL : Str → Str → Bool
  | [], _ => true
  | _ :: _, [] => false
  | a :: as, b :: bs => a = b && isPrefixL as bs

/-- All suffixes of `s` that start immediately after an occurrence of
`m`, in left-to-right order of the occurrence. -/
def suffixesAfterMarker (m : Str) : Str → List Str
  | [] => if isPrefixL m [] then [([] : Str).drop m.length] else []
  | c :: t =>
    (if isPrefixL m (c :: t) then [(c :: t).drop m.length] else []) ++ suffixesAfterMarker m t

/-- Python `pat in s` substring test. -/
def containsSub (pat s : Str) : Bool := !(suffixesAfterMarker pat s).isEmpty

/-- Body of `artist_re = (?<=<b>)[^<]+(?=<)` at one candidate position: a
non-empty maximal run of non-`<` characters that is terminated by a `<`. -/
def tryArtist (suf : Str) : Option Str :=
  let run := suf.takeWhile (fun c => !(c = '<'))
  if run ≠ [] ∧ (suf.drop run.length).head? = some '<' then some run else none

/-- `artist_re.search`. -/
def artistSearch (s : Str) : Option Str :=
  (suffixesAfterMarker (strL "<b>") s).findSome? tryArtist

/-- Body of `day_re = (?<=-1">)[a-zA-Z]{3}(?=<)` at one candidate position. -/
def tryDay (suf : Str) : Option Str :=
  match suf with
  | a :: b :: c :: d :: _ =>
    if a.isAlpha ∧ b.isAlpha ∧ c.isAlpha ∧ d = '<' then some [a, b, c] else none
  | _ => none

/-- `day_re.search`. -/
def daySearch (s : Str) : Option Str :=
  (suffixesAfterMarker (strL "-1\">") s).findSome? tryDay

/-- Character class `[0-9\-]`. -/
def isDateChar (c : Char) : Bool := c.isDigit || c = '-'

/-- Body of `date_re = (?<=0">)[0-9\-]{10}` at one candidate position. -/
def tryDate (suf : Str) : Option Str :=
  if (suf.take 10).length = 10 ∧ (suf.take 10).all isDateChar then some (suf.take 10) else none

/-- `date_re.search`. -/
def dateSearch (s : Str) : Option Str :=
  (suffixesAfterMarker (strL "0\">") s).findSome? tryDate

/-- Search for `(?<=marker)[^<]*`: the body always matches (possibly the
empty string), so the first marker occurrence wins. -/
def starSearch (marker : Str) (s : Str) : Option Str :=
  (suffixesAfterMarker marker s).head?.map (fun suf => suf.takeWhile (fun c => !(c = '<')))

/-- `venue_re.search`, pattern `(?<=2">)[^<]*`. -/
def venueSearch (s : Str) : Option Str := starSearch (strL "2\">") s

/-- `cost_re.search`, pattern `(?<=3">)[^<]*`. -/
def costSearch (s : Str) : Option Str := starSearch (strL "3\">") s

/-! ## The catalog built by concertList (source lines 70-84) -/

/-- The Python dict `{artist name: [concert, ...]}` with insertion order,
modelled as an association list with unique keys kept in insertion order. -/
abbrev Catalog : Type := List (Str × List Concert)

/-- `artists[name] = [concert]` for a new key (appended at the end, as dict
insertion order does) or `artists[name].append(concert)` for an existing
key. -/
def catalogAdd : Catalog → Str → Concert → Catalog
  | [], name, c => [(name, [c])]
  | (n, cs) :: rest, name, c =>
    if n = name then (n, cs ++ [c]) :: rest else (n, cs) :: catalogAdd rest name c

/-- Look a name up in the catalog, defaulting to the empty concert list. -/
def catFind : Catalog → Str → List Concert
  | [], _ => []
  | (n, cs) :: rest, name => if n = name then cs else catFind rest name

/-- The data-cell filter `artist_tag = "<td "` applied with `in`. -/
def hasTd (l : Str) : Bool := containsSub (strL "<td ") l

/-- One iteration of the `for l in site_data` loop.  When the artist
pattern matches, the other four `.search(l).group()` calls and the date
split are assumed to succeed; otherwise Python raises, modelled as
`none`. -/
def processLine (artists : Catalog) (l : Str) : Option Catalog :=
  match artistSearch l with
  | none => some artists
  | some name =>
    match daySearch l, dateSearch l, venueSearch l, costSearch l with
    | some day, some date, some venue, some cost =>
      (formatConcert day date venue cost).map (fun c => catalogAdd artists name c)
    | _, _, _, _ => none

/-- `concertList` on already-fetched page lines: filter to lines containing
the data-cell marker, then fold the per-line parser over them. -/
def concertList (lines : List Str) : Option Catalog :=
  List.foldlM processLine [] (lines.filter hasTd)

/-! ## trimName (source lines 86-92) -/

/-- Python `s[:j]`, including the negative-index convention. -/
def pyTake (s : Str) (j : Int) : Str :=
  if j < 0 then s.take ((s.length : Int) + j).toNat else s.take j.toNat

/-- `trimName(name, length)`: truncate and append an ellipsis when the name
exceeds the given length. -/
def trimName (name : Str) (width : Int) : Str :=
  if (name.length : Int) > width then pyTake name width ++ strL "..." else name

/-! ## Abstract display surface -/

/-- Style flags used by the two renderers. -/
inductive Style
  | normal
  | bold
  | underline
  | standout
deriving DecidableEq

/-- One `win.addstr(row, col, text, style)` call. -/
structure DrawOp where
  row : Int
  col : Int
  text : Str
  style : Style
deriving DecidableEq

/-- Python list indexing `l[i]`: negative indices count from the end and
out-of-range indices raise `IndexError`, modelled as `none`. -/
def pyIndex {α : Type} (l : List α) (i : Int) : Option α :=
  if 0 ≤ i then l.get? i.toNat
  else if i + (l.length : Int) < 0 then none
  else l.get? (i + (l.length : Int)).toNat

/-! ## populateListWin (source lines 94-134) -/

/-- The `for row in range(1, MID_Y - MARGIN)` loop of `populateListWin`:
above-midpoint and below-midpoint neighbours, guarded by list bounds. -/
def listLoop (names : List Str) (offset midY width : Int) : Nat → Int → Option (List DrawOp)
  | 0, _ => some []
  | fuel + 1, row => do
    let above ←
      if 0 ≤ offset - row then do
        let a ← pyIndex names (offset - row)
        pure [DrawOp.mk (midY - row) 1 (trimName a width) Style.normal]
      else pure ([] : List DrawOp)
    let below ←
      if offset + row < (names.length : Int) then do
        let b ← pyIndex names (offset + row)
        pure [DrawOp.mk (midY + row) 1 (trimName b width) Style.normal]
      else pure ([] : List DrawOp)
    let rest ← listLoop names offset midY width fuel (row + 1)
    pure (above ++ below ++ rest)

/-- `populateListWin(win, names, offset, MID_Y, width)`: the highlighted
name `names[offset]` (an `IndexError` when out of range, modelled as
`none`) followed by the neighbour rows.  `width -= 7`, `MARGIN = 1`,
`SHIFT = 4`. -/
def populateListWin (names : List Str) (offset midY width : Int) : Option (List DrawOp) := do
  let w := width - 7
  let mainName ← pyIndex names offset
  let rest ← listLoop names offset midY w (midY - 2).toNat 1
  pure (DrawOp.mk midY 5 (trimName mainName (w - 4)) Style.standout :: rest)

/-! ## populateInfoWin (source lines 136-161) -/

/-- The concatenated date line `day + " " + date + " " + getMonth(month)
+ " " + year`; fails when `int(month)` or the table lookup raises. -/
def dayString (c : Concert) : Option Str := do
  let m ← pyInt c.month
  let nm ← getMonth m
  pure (c.day ++ [' '] ++ c.date ++ [' '] ++ nm ++ [' '] ++ c.year)

/-- The `for c in concerts` loop of `populateInfoWin`, starting at row
`MARGIN = 4` and advancing the row by 4 per concert. -/
def infoGo : List Concert → Int → Option (List DrawOp)
  | [], _ => some []
  | c :: rest, row => do
    let ds ← dayString c
    let tail ← infoGo rest (row + 4)
    pure (DrawOp.mk row 4 c.venue Style.bold ::
          DrawOp.mk (row + 1) 8 ds Style.normal ::
          DrawOp.mk (row + 2) 8 c.cost Style.normal :: tail)

/-- `populateInfoWin(win, concerts, name)`: the underlined artist heading at
`(MARGIN/2, MARGIN/2) = (2, 2)` followed by the per-concert entries. -/
def populateInfoWin (concerts : List Concert) (name : Str) : Option (List DrawOp) :=
  (infoGo concerts 4).map (fun l => DrawOp.mk 2 2 name Style.underline :: l)

/-- Total version of `dayString`, meaningful when `dayString` succeeds. -/
def dayStringD (c : Concert) : Str := (dayString c).getD []

/-- The three draw operations of the concert at position `i`: venue in
bold at row `4 + 4 i`, the date line and the cost indented below it. -/
def infoEntry (p : Nat × Concert) : List DrawOp :=
  [DrawOp.mk (4 + 4 * (p.1 : Int)) 4 p.2.venue Style.bold,
   DrawOp.mk (5 + 4 * (p.1 : Int)) 8 (dayStringD p.2) Style.normal,
   DrawOp.mk (6 + 4 * (p.1 : Int)) 8 p.2.cost Style.normal]

/-- Flatten the per-concert entries of an indexed concert list. -/
def opsOfConcerts : List (Nat × Concert) → List DrawOp
  | [] => []
  | p :: ps => infoEntry p ++ opsOfConcerts ps

/-- Pair each concert with its position, starting at `k`. -/
def enumFromN (k : Nat) : List Concert → List (Nat × Concert)
  | [] => []
  | c :: cs => (k, c) :: enumFromN (k + 1) cs

/-! ## The event loop of main (source lines 200-219) -/

/-- Classified input events: arrow-or-letter scroll keys, the two
fast-scroll keys, the quit keys, and everything else. -/
inductive Key
  | up
  | down
  | fastUp
  | fastDown
  | quit
  | other
deriving DecidableEq

/-- The `elif` chain of the main loop: each navigation branch is guarded
exactly as in the source (`offset > 0` upward, `offset < len(artists)`
downward), and `fast = SUB_Y - 2 * MARGIN` is the fast-scroll stride. -/
def rawMove (n fast : Int) (k : Key) (off : Int) : Int :=
  match k with
  | Key.up => if 0 < off then off - 1 else off
  | Key.down => if off < n then off + 1 else off
  | Key.fastUp => if 0 < off then off - fast else off
  | Key.fastDown => if off < n then off + fast else off
  | _ => off

/-- First safety reset: `if offset > len(artists) - 1: offset = len(artists) - 1`. -/
def clampHigh (n off : Int) : Int := if n - 1 < off then n - 1 else off

/-- Both safety resets, in source order. -/
def clampOffset (n off : Int) : Int := if clampHigh n off < 0 then 0 else clampHigh n off

/-- One non-quit loop iteration: move, then apply the safety resets. -/
def stepKey (n fast : Int) (k : Key) (off : Int) : Int := clampOffset n (rawMove n fast k off)

/-- One iteration of the event loop: `none` means the `break` on the quit
key; otherwise the loop re-enters with the updated offset. -/
def loopStep (n fast off : Int) : Key → Option Int
  | Key.quit => none
  | k => some (stepKey n fast k off)

/-! ## Concrete inputs used by witnesses and counterexamples -/

/-- A well-formed calendar data row. -/
def goodLine : Str := strL "<td <b>A< -1\">Mon< 0\">01-15-2024 2\">Hall< 3\">$10<"

/-- The concert parsed from `goodLine`. -/
def goodC : Concert :=
  ⟨strL "Hall", strL "2024", strL "01", strL "15", strL "Mon", strL "$10"⟩

/-- A data row the five patterns all accept whose venue cell is empty and
whose date token is degenerate. -/
def badLine : Str := strL "<td <b>A< -1\">Mon< 0\">1--------- 2\">< 3\">$5<"

/-- The concert parsed from `badLine`: empty venue, empty day-of-month,
empty year. -/
def badC : Concert := ⟨[], [], strL "1", [], strL "Mon", strL "$5"⟩

/-- Field guarantees that actually hold for every emitted concert: the
weekday is exactly three letters, the month field is all digits, and a
non-empty month converts with `int()` and lands in the twelve-entry table
after the `% 12` normalization. -/
def goodConcert (c : Concert) : Prop :=
  c.day.length = 3 ∧ c.day.all Char.isAlpha = true ∧ c.month.all Char.isDigit = true ∧
  (c.month ≠ [] → ∃ m : Int, pyInt c.month = some m ∧ 0 ≤ (m - 1) % 12 ∧ (m - 1) % 12 < 12)

/-! ## Helper lemmas -/

theorem findSome_inv {α β : Type} (f : α → Option β) :
    ∀ (l : List α) (b : β), l.findSome? f = some b → ∃ a, a ∈ l ∧ f a = some b := by
  intro l
  induction l with
  | nil => intro b h; simp [List.findSome?] at h
  | cons x xs ih =>
    intro b h
    rcases hfx : f x with _ | y
    · rw [List.findSome?, hfx] at h
      obtain ⟨a, ha, hfa⟩ := ih b h
      exact ⟨a, List.mem_cons_of_mem _ ha, hfa⟩
    · rw [List.findSome?, hfx] at h
      exact ⟨x, List.mem_cons_self _ _, by rw [hfx]; exact h⟩

theorem get?_mem_of_eq {α : Type} :
    ∀ (l : List α) (i : Nat) (a : α), l.get? i = some a → a ∈ l := by
  intro l
  induction l with
  | nil => intro i a h; simp [List.get?] at h
  | cons x xs ih =>
    intro i a h
    cases i with
    | zero => rw [List.get?] at h; injection h with h; rw [h]; exact List.mem_cons_self _ _
    | succ j => exact List.mem_cons_of_mem _ (ih j a h)

theorem get?_some_of_lt {α : Type} :
    ∀ (l : List α) (i : Nat), i < l.length → ∃ a, l.get? i = some a := by
  intro l
  induction l with
  | nil => intro i h; simp at h
  | cons x xs ih =>
    intro i h
    cases i with
    | zero => exact ⟨x, rfl⟩
    | succ j => exact ih j (by simpa using h)

/-! ## C6: month-name lookup is periodic with period 12 -/

/-- C6: month-name lookup is periodic with period 12: for every month value
`m` and every integer `k`, `getMonth (m + 12 * k) = getMonth m` (all
integers are representable), and in particular `getMonth 13 = getMonth 1 =
some "January"`. -/
theorem getMonth_periodic :
    (∀ m k : Int, getMonth (m + 12 * k) = getMonth m) ∧
    getMonth 13 = some (strL "January") ∧ getMonth 1 = some (strL "January") := by
  refine ⟨fun m k => ?_, by rfl, by rfl⟩
  unfold getMonth
  have h : (m + 12 * k - 1) % 12 = (m - 1) % 12 := by omega
  rw [h]

/-! ## C10: month-name lookup is total over all integers -/

/-- C10: month-name lookup is total over every integer `n`, including 0 and
negatives: `getMonth n` returns one of the twelve names of the fixed month
table and never hits an out-of-bounds index, because `(n - 1) % 12` always
lies in `[0, 11]`. -/
theorem getMonth_total :
    ∀ n : Int, (∃ s, getMonth n = some s ∧ s ∈ months) ∧
      0 ≤ (n - 1) % 12 ∧ (n - 1) % 12 < 12 := by
  intro n
  have hb0 : 0 ≤ (n - 1) % 12 := by omega
  have hb1 : (n - 1) % 12 < 12 := by omega
  have hlen : months.length = 12 := by rfl
  have hidx : ((n - 1) % 12).toNat < months.length := by rw [hlen]; omega
  obtain ⟨s, hs⟩ := get?_some_of_lt months _ hidx
  exact ⟨⟨s, hs, get?_mem_of_eq months _ s hs⟩, hb0, hb1⟩

/-! ## C3: name truncation (corrected) -/

/-- C3 counterexample: for the 4-character name `"abcd"` and allotted width
2, the trimmed string is `"ab..."`, whose length is 5, not 2 as the claim
states. -/
theorem trimName_claim_cex :
    ¬((trimName (strL "abcd") 2).length = 2) ∧ trimName (strL "abcd") 2 = strL "ab..." :=
  ⟨by decide, by rfl⟩

/-- C3 amended: for every name strictly longer than the allotted
(nonnegative) width, the trimmed rendered string has length exactly
`width + 3` and ends with `"..."`. -/
theorem trimName_trim_spec (name : Str) (w : Int) (h0 : 0 ≤ w)
    (h1 : w < (name.length : Int)) :
    (trimName name w).length = w.toNat + 3 ∧ List.IsSuffix (strL "...") (trimName name w) := by
  have hgt : (name.length : Int) > w := h1
  have hw : ¬w < 0 := by omega
  have htn : w.toNat ≤ name.length := by omega
  constructor
  · unfold trimName pyTake
    rw [if_pos hgt, if_neg hw]
    have h3 : (strL "...").length = 3 := by rfl
    simp only [List.length_append, List.length_take, h3]
    omega
  · unfold trimName pyTake
    rw [if_pos hgt, if_neg hw]
    exact ⟨name.take w.toNat, rfl⟩

/-- C3 witness: the amended theorem evaluated at name `"abcdef"` and width
3 gives the 6-character string `"abc..."`. -/
theorem trimName_trim_spec_witness :
    (trimName (strL "abcdef") 3).length = (3 : Int).toNat + 3 ∧
      List.IsSuffix (strL "...") (trimName (strL "abcdef") 3) :=
  trimName_trim_spec (strL "abcdef") 3 (by decide) (by decide)

/-! ## C2: empty catalog handling (the code faults) -/

/-- C2: when no line carries the data-cell marker the extractor does return
an empty catalog, but the renderers do not degrade: the event loop then
evaluates `names[offset]` with `offset = 0` on the empty artist list, an
`IndexError` (`none` in the model) rather than an empty-state display. -/
theorem emptyCatalog_fault :
    concertList [] = some [] ∧
    concertList [strL "<html>"] = some [] ∧
    populateListWin [] 0 10 40 = none ∧
    pyIndex ([] : List Str) 0 = none :=
  ⟨rfl, rfl, rfl, rfl⟩

/-! ## C1 and C9: the event loop -/

theorem clampOffset_bounds (n x : Int) (hn : 1 ≤ n) :
    0 ≤ clampOffset n x ∧ clampOffset n x ≤ n - 1 := by
  simp only [clampOffset, clampHigh]
  split_ifs <;> omega

theorem stepKey_up_eq (n fast off : Int) (_hn : 1 ≤ n) (h0 : 0 ≤ off) (h1 : off ≤ n - 1) :
    stepKey n fast Key.up off = if 0 < off then off - 1 else 0 := by
  simp only [stepKey, rawMove, clampOffset, clampHigh]
  split_ifs <;> omega

theorem stepKey_down_eq (n fast off : Int) (hn : 1 ≤ n) (h0 : 0 ≤ off) (h1 : off ≤ n - 1) :
    stepKey n fast Key.down off = if off < n - 1 then off + 1 else n - 1 := by
  simp only [stepKey, rawMove, clampOffset, clampHigh]
  split_ifs <;> omega

theorem stepKey_up_iter (n fast : Int) (hn : 1 ≤ n) :
    ∀ (m : Nat) (off : Int), 0 ≤ off → off ≤ n - 1 → off.toNat ≤ m →
      (stepKey n fast Key.up)^[m] off = 0 := by
  intro m
  induction m with
  | zero =>
    intro off h0 h1 hm
    have : off = 0 := by omega
    simp [this]
  | succ m ih =>
    intro off h0 h1 hm
    rw [Function.iterate_succ_apply, stepKey_up_eq n fast off hn h0 h1]
    by_cases hpos : 0 < off
    · rw [if_pos hpos]
      exact ih (off - 1) (by omega) (by omega) (by omega)
    · rw [if_neg hpos]
      exact ih 0 (by omega) (by omega) (by omega)

theorem stepKey_down_iter (n fast : Int) (hn : 1 ≤ n) :
    ∀ (m : Nat) (off : Int), 0 ≤ off → off ≤ n - 1 → (n - 1 - off).toNat ≤ m →
      (stepKey n fast Key.down)^[m] off = n - 1 := by
  intro m
  induction m with
  | zero =>
    intro off h0 h1 hm
    have : off = n - 1 := by omega
    simp [this]
  | succ m ih =>
    intro off h0 h1 hm
    rw [Function.iterate_succ_apply, stepKey_down_eq n fast off hn h0 h1]
    by_cases hlt : off < n - 1
    · rw [if_pos hlt]
      exact ih (off + 1) (by omega) (by omega) (by omega)
    · rw [if_neg hlt]
      exact ih (n - 1) (by omega) (by omega) (by omega)

/-- C1: for every non-empty artist list and every input event, the offset
the loop re-enters with (and hence renders with) stays in `[0, n - 1]`;
repeated single-step up moves converge to index 0 and stay there, and
repeated single-step down moves converge to index `n - 1` and stay there
(clamping, no wraparound). -/
theorem loopStep_clamp_converge (n fast off : Int) (k : Key) (hn : 1 ≤ n)
    (h0 : 0 ≤ off) (h1 : off ≤ n - 1) :
    (∀ off', loopStep n fast off k = some off' → 0 ≤ off' ∧ off' ≤ n - 1) ∧
    (∀ m : Nat, off.toNat ≤ m → (stepKey n fast Key.up)^[m] off = 0) ∧
    (∀ m : Nat, (n - 1 - off).toNat ≤ m → (stepKey n fast Key.down)^[m] off = n - 1) := by
  refine ⟨?_, fun m hm => stepKey_up_iter n fast hn m off h0 h1 hm,
    fun m hm => stepKey_down_iter n fast hn m off h0 h1 hm⟩
  intro off' h
  cases k with
  | quit => exact absurd h (by simp [loopStep])
  | up =>
    have h' : some (stepKey n fast Key.up off) = some off' := h
    injection h' with h'
    rw [← h']; exact clampOffset_bounds n _ hn
  | down =>
    have h' : some (stepKey n fast Key.down off) = some off' := h
    injection h' with h'
    rw [← h']; exact clampOffset_bounds n _ hn
  | fastUp =>
    have h' : some (stepKey n fast Key.fastUp off) = some off' := h
    injection h' with h'
    rw [← h']; exact clampOffset_bounds n _ hn
  | fastDown =>
    have h' : some (stepKey n fast Key.fastDown off) = some off' := h
    injection h' with h'
    rw [← h']; exact clampOffset_bounds n _ hn
  | other =>
    have h' : some (stepKey n fast Key.other off) = some off' := h
    injection h' with h'
    rw [← h']; exact clampOffset_bounds n _ hn

/-- C1 witness: with 3 artists, from index 1 two up-steps reach and stay at
index 0, and four down-steps reach and stay at index 2. -/
theorem loopStep_clamp_converge_witness :
    (stepKey 3 5 Key.up)^[2] 1 = 0 ∧ (stepKey 3 5 Key.down)^[4] 1 = 3 - 1 :=
  ⟨(loopStep_clamp_converge 3 5 1 Key.other (by decide) (by decide) (by decide)).2.1
      2 (by decide),
   (loopStep_clamp_converge 3 5 1 Key.other (by decide) (by decide) (by decide)).2.2
      4 (by decide)⟩

/-- C9: the event loop is a two-state machine: on a quit key the loop exits
(`none`, the only terminal outcome), on any non-quit key it re-enters
Running with a valid offset, and on a non-navigation key the offset is
unchanged. -/
theorem loopStep_machine (n fast off : Int) (hn : 1 ≤ n)
    (h0 : 0 ≤ off) (h1 : off ≤ n - 1) :
    loopStep n fast off Key.quit = none ∧
    (∀ k : Key, ¬k = Key.quit →
      ∃ off', loopStep n fast off k = some off' ∧ 0 ≤ off' ∧ off' ≤ n - 1) ∧
    loopStep n fast off Key.other = some off := by
  have hid : stepKey n fast Key.other off = off := by
    simp only [stepKey, rawMove, clampOffset, clampHigh]
    split_ifs <;> omega
  refine ⟨rfl, ?_, show some (stepKey n fast Key.other off) = some off by rw [hid]⟩
  intro k hk
  cases k with
  | quit => exact absurd rfl hk
  | up => exact ⟨_, rfl, clampOffset_bounds n _ hn⟩
  | down => exact ⟨_, rfl, clampOffset_bounds n _ hn⟩
  | fastUp => exact ⟨_, rfl, clampOffset_bounds n _ hn⟩
  | fastDown => exact ⟨_, rfl, clampOffset_bounds n _ hn⟩
  | other => exact ⟨_, rfl, clampOffset_bounds n _ hn⟩

/-- C9 witness: with 3 artists at index 1, the quit key terminates the loop
and an unrecognized key re-enters it with the index unchanged. -/
theorem loopStep_machine_witness :
    loopStep 3 5 1 Key.quit = none ∧ loopStep 3 5 1 Key.other = some 1 :=
  ⟨(loopStep_machine 3 5 1 (by decide) (by decide) (by decide)).1,
   (loopStep_machine 3 5 1 (by decide) (by decide) (by decide)).2.2⟩

/-! ## C5: positional date split in formatConcert -/

theorem digit_ne_dash {c : Char} (h : c.isDigit = true) : ¬c = '-' := by
  intro hc
  rw [hc] at h
  exact absurd h (by decide)

/-- C5: for every date token of the form `NN-NN-NNNN`, splitting on `-`
yields exactly the components `[NN, NN, NNNN]`, and `formatConcert` assigns
them positionally: month = component 0, day-of-month = component 1, year =
component 2 of the resulting concert record. -/
theorem formatConcert_positional (day venue cost : Str) (a b c d e f g h : Char)
    (h1 : a.isDigit = true) (h2 : b.isDigit = true) (h3 : c.isDigit = true)
    (h4 : d.isDigit = true) (h5 : e.isDigit = true) (h6 : f.isDigit = true)
    (h7 : g.isDigit = true) (h8 : h.isDigit = true) :
    pySplit '-' [a, b, '-', c, d, '-', e, f, g, h] = [[a, b], [c, d], [e, f, g, h]] ∧
    formatConcert day [a, b, '-', c, d, '-', e, f, g, h] venue cost =
      some ⟨venue, [e, f, g, h], [a, b], [c, d], day, cost⟩ := by
  have n1 := digit_ne_dash h1
  have n2 := digit_ne_dash h2
  have n3 := digit_ne_dash h3
  have n4 := digit_ne_dash h4
  have n5 := digit_ne_dash h5
  have n6 := digit_ne_dash h6
  have n7 := digit_ne_dash h7
  have n8 := digit_ne_dash h8
  have hsplit : pySplit '-' [a, b, '-', c, d, '-', e, f, g, h] =
      [[a, b], [c, d], [e, f, g, h]] := by
    simp [pySplit, consHead, n1, n2, n3, n4, n5, n6, n7, n8]
  exact ⟨hsplit, by rw [formatConcert, hsplit]⟩

/-- C5 witness: the token `"01-15-2024"` splits into `["01", "15", "2024"]`
and is packed with month `"01"`, day-of-month `"15"`, year `"2024"`. -/
theorem formatConcert_positional_witness :
    pySplit '-' (strL "01-15-2024") = [strL "01", strL "15", strL "2024"] ∧
    formatConcert (strL "Mon") (strL "01-15-2024") (strL "Hall") (strL "$10") = some goodC :=
  formatConcert_positional (strL "Mon") (strL "Hall") (strL "$10") '0' '1' '1' '5' '2' '0' '2' '4'
    (by decide) (by decide) (by decide) (by decide) (by decide) (by decide) (by decide) (by decide)

/-! ## C8: the detail renderer -/

theorem getMonth_isSome (m : Int) : ∃ s, getMonth m = some s := by
  have hlen : months.length = 12 := by rfl
  have hidx : ((m - 1) % 12).toNat < months.length := by rw [hlen]; omega
  exact get?_some_of_lt months _ hidx

theorem dayString_eq_some (c : Concert) (h : (pyInt c.month).isSome = true) :
    dayString c = some (dayStringD c) := by
  rcases hm : pyInt c.month with _ | m
  · rw [hm] at h; exact absurd h (by decide)
  · obtain ⟨nm, hnm⟩ := getMonth_isSome m
    rw [dayStringD]
    show dayString c = some ((dayString c).getD [])
    rw [dayString]
    simp [hm, hnm]

theorem infoGo_enum :
    ∀ (concerts : List Concert) (k : Nat),
      (∀ c ∈ concerts, (pyInt c.month).isSome = true) →
      infoGo concerts (4 + 4 * (k : Int)) = some (opsOfConcerts (enumFromN k concerts)) := by
  intro concerts
  induction concerts with
  | nil => intro k _; simp [infoGo, opsOfConcerts, enumFromN]
  | cons c rest ih =>
    intro k h
    have hc : dayString c = some (dayStringD c) :=
      dayString_eq_some c (h c (List.mem_cons_self _ _))
    have harith : (4 + 4 * (k : Int)) + 4 = 4 + 4 * ((k + 1 : Nat) : Int) := by push_cast; ring
    have hr : infoGo rest ((4 + 4 * (k : Int)) + 4) = some (opsOfConcerts (enumFromN (k + 1) rest)) := by
      rw [harith]
      exact ih (k + 1) (fun c' hc' => h c' (List.mem_cons_of_mem _ hc'))
    rw [infoGo, hc, hr]
    simp [opsOfConcerts, enumFromN, infoEntry]
    omega

/-- C8: given the selected artist's name and its ordered concert sequence
(whose month fields all convert), the detail renderer emits the underlined
name heading at (2, 2) and then, for the concert at each position `i` in
sequence order, exactly three lines: the venue in bold at row `4 + 4 i`,
then the string `weekday day-of-month month-name year`, then the cost; the
row advances by the fixed stride 4 per concert, so the rows of distinct
concerts never overlap. -/
theorem populateInfoWin_layout (concerts : List Concert) (name : Str)
    (h : ∀ c ∈ concerts, (pyInt c.month).isSome = true) :
    populateInfoWin concerts name =
      some (DrawOp.mk 2 2 name Style.underline :: opsOfConcerts (enumFromN 0 concerts)) ∧
    ∀ i j : Nat, i < j → (6 + 4 * (i : Int)) < 4 + 4 * (j : Int) := by
  constructor
  · have h0 : infoGo concerts 4 = some (opsOfConcerts (enumFromN 0 concerts)) := by
      have := infoGo_enum concerts 0 h
      norm_num at this
      exact this
    rw [populateInfoWin, h0]
    rfl
  · intro i j hij
    omega

/-- C8 witness: the layout theorem evaluated at the one-concert sequence of
`goodC` for artist `"A"`. -/
theorem populateInfoWin_layout_witness :
    populateInfoWin [goodC] (strL "A") =
      some (DrawOp.mk 2 2 (strL "A") Style.underline :: opsOfConcerts (enumFromN 0 [goodC])) :=
  (populateInfoWin_layout [goodC] (strL "A") (by decide)).1

/-! ## C7: contribution per surviving line -/

theorem catFind_catalogAdd_self :
    ∀ (cat : Catalog) (name : Str) (c : Concert),
      catFind (catalogAdd cat name c) name = catFind cat name ++ [c] := by
  intro cat
  induction cat with
  | nil => intro name c; simp [catalogAdd, catFind]
  | cons p rest ih =>
    intro name c
    obtain ⟨n, cs⟩ := p
    by_cases hn : n = name
    · simp [catalogAdd, catFind, hn]
    · simp [catalogAdd, catFind, hn, ih]

theorem catFind_catalogAdd_other :
    ∀ (cat : Catalog) (name : Str) (c : Concert) (n' : Str), ¬n' = name →
      catFind (catalogAdd cat name c) n' = catFind cat n' := by
  intro cat
  induction cat with
  | nil =>
    intro name c n' hne
    have : ¬name = n' := fun hh => hne hh.symm
    simp [catalogAdd, catFind, this]
  | cons p rest ih =>
    intro name c n' hne
    obtain ⟨n, cs⟩ := p
    by_cases hn : n = name
    · subst hn
      have hnn' : ¬n = n' := fun hh => hne hh.symm
      simp [catalogAdd, catFind, hnn']
    · have hstep : catalogAdd ((n, cs) :: rest) name c = (n, cs) :: catalogAdd rest name c := by
        simp [catalogAdd, hn]
      rw [hstep]
      show (if n = n' then cs else catFind (catalogAdd rest name c) n') =
        (if n = n' then cs else catFind rest n')
      rw [ih name c n' hne]

/-- C7: for every line, the loop body contributes a concert to the catalog
if and only if the artist-name pattern matches it: when the pattern does
not match, the catalog is returned unchanged; when it matches (and the
iteration completes), exactly one concert is appended at the end of that
artist's sequence — page encounter order, no de-duplication, no sorting —
and every other artist's sequence is untouched. -/
theorem processLine_contribution (acc : Catalog) (l : Str) (acc' : Catalog)
    (h : processLine acc l = some acc') :
    (artistSearch l = none → acc' = acc) ∧
    (∀ name, artistSearch l = some name →
      ∃ c, catFind acc' name = catFind acc name ++ [c] ∧
        ∀ n, ¬n = name → catFind acc' n = catFind acc n) := by
  rw [processLine] at h
  rcases ha : artistSearch l with _ | nm
  · rw [ha] at h
    refine ⟨fun _ => ?_, fun name hname => ?_⟩
    · injection h with h; exact h.symm
    · exact absurd hname (by simp)
  · rw [ha] at h
    refine ⟨fun hnone => absurd hnone (by simp), fun name hname => ?_⟩
    injection hname with hname
    rcases hd : daySearch l with _ | day <;> rw [hd] at h
    · exact absurd h (by simp)
    rcases hdt : dateSearch l with _ | date <;> rw [hdt] at h
    · exact absurd h (by simp)
    rcases hv : venueSearch l with _ | venue <;> rw [hv] at h
    · exact absurd h (by simp)
    rcases hc : costSearch l with _ | cost <;> rw [hc] at h
    · exact absurd h (by simp)
    have h2 : Option.map (fun c => catalogAdd acc nm c) (formatConcert day date venue cost) =
        some acc' := h
    rcases hf : formatConcert day date venue cost with _ | c0 <;> rw [hf] at h2
    · exact absurd h2 (by simp)
    simp only [Option.map_some'] at h2
    injection h2 with h2
    rw [← h2, ← hname]
    exact ⟨c0, catFind_catalogAdd_self acc nm c0,
      fun n hne => catFind_catalogAdd_other acc nm c0 n hne⟩

/-- C7 witness: processing the well-formed data row over the empty catalog
appends exactly one concert to artist `"A"` and leaves all other artists'
sequences untouched. -/
theorem processLine_contribution_witness :
    ∃ c, catFind [(strL "A", [goodC])] (strL "A") = catFind [] (strL "A") ++ [c] ∧
      ∀ n, ¬n = strL "A" → catFind [(strL "A", [goodC])] n = catFind [] n :=
  (processLine_contribution [] goodLine [(strL "A", [goodC])] (by rfl)).2 (strL "A") (by rfl)

/-! ## C4: field guarantees of emitted concerts -/

theorem daySearch_shape (l : Str) (d : Str) (h : daySearch l = some d) :
    d.length = 3 ∧ d.all Char.isAlpha = true := by
  obtain ⟨suf, _, hf⟩ := findSome_inv tryDay _ d h
  rcases suf with _ | ⟨a, _ | ⟨b, _ | ⟨c, _ | ⟨e, rest⟩⟩⟩⟩ <;>
    simp only [tryDay] at hf
  · exact absurd hf (by simp)
  · exact absurd hf (by simp)
  · exact absurd hf (by simp)
  · exact absurd hf (by simp)
  · split at hf
    · rename_i hcond
      injection hf with hf
      rw [← hf]
      exact ⟨rfl, by simp [List.all, hcond.1, hcond.2.1, hcond.2.2.1]⟩
    · exact absurd hf (by simp)

theorem dateSearch_shape (l : Str) (t : Str) (h : dateSearch l = some t) :
    t.length = 10 ∧ t.all isDateChar = true := by
  obtain ⟨suf, _, hf⟩ := findSome_inv tryDate _ t h
  rw [tryDate] at hf
  split at hf
  · rename_i hcond
    injection hf with hf
    rw [← hf]
    exact ⟨hcond.1, hcond.2⟩
  · exact absurd hf (by simp)

theorem pySplit_ne_nil (sep : Char) : ∀ s : Str, pySplit sep s ≠ [] := by
  intro s
  induction s with
  | nil => simp [pySplit]
  | cons c t ih =>
    rw [pySplit]
    split
    · simp
    · rcases hq : pySplit sep t with _ | ⟨p, ps⟩
      · exact absurd hq ih
      · simp [consHead]

theorem pySplit_chars (sep : Char) :
    ∀ (s p : Str), p ∈ pySplit sep s → ∀ ch ∈ p, ch ∈ s ∧ ¬ch = sep := by
  intro s
  induction s with
  | nil =>
    intro p hp ch hch
    rw [pySplit] at hp
    simp at hp
    subst hp
    simp at hch
  | cons c t ih =>
    intro p hp ch hch
    rw [pySplit] at hp
    by_cases hcs : c = sep
    · rw [if_pos hcs] at hp
      rcases List.mem_cons.mp hp with rfl | hp'
      · simp at hch
      · obtain ⟨hin, hne⟩ := ih p hp' ch hch
        exact ⟨List.mem_cons_of_mem _ hin, hne⟩
    · rw [if_neg hcs] at hp
      rcases hq : pySplit sep t with _ | ⟨q, qs⟩
      · exact absurd hq (pySplit_ne_nil sep t)
      · rw [hq] at hp
        rw [consHead] at hp
        rcases List.mem_cons.mp hp with rfl | hp'
        · rcases List.mem_cons.mp hch with rfl | hchq
          · exact ⟨List.mem_cons_self _ _, hcs⟩
          · obtain ⟨hin, hne⟩ := ih q (by rw [hq]; exact List.mem_cons_self _ _) ch hchq
            exact ⟨List.mem_cons_of_mem _ hin, hne⟩
        · obtain ⟨hin, hne⟩ := ih p (by rw [hq]; exact List.mem_cons_of_mem _ hp') ch hch
          exact ⟨List.mem_cons_of_mem _ hin, hne⟩

theorem formatConcert_inv (day date venue cost : Str) (c : Concert)
    (h : formatConcert day date venue cost = some c) :
    ∃ m d y rest, pySplit '-' date = m :: d :: y :: rest ∧
      c = ⟨venue, y, m, d, day, cost⟩ := by
  rw [formatConcert] at h
  rcases hq : pySplit '-' date with _ | ⟨m, _ | ⟨d, _ | ⟨y, rest⟩⟩⟩ <;> rw [hq] at h
  · exact absurd h (by simp)
  · exact absurd h (by simp)
  · exact absurd h (by simp)
  · injection h with h
    exact ⟨m, d, y, rest, rfl, h.symm⟩

theorem pyInt_digits (s : Str) (hne : s ≠ []) (hd : s.all Char.isDigit = true) :
    pyInt s = some ((digitsToNat s : Nat) : Int) := by
  rcases s with _ | ⟨c, rest⟩
  · exact absurd rfl hne
  · have hc : c.isDigit = true := by
      have := List.all_eq_true.mp hd c (List.mem_cons_self _ _)
      simpa using this
    have h1 : ¬c = '-' := digit_ne_dash hc
    have h2 : ¬c = '+' := by
      intro hh
      rw [hh] at hc
      exact absurd hc (by decide)
    rw [pyInt, if_neg h1, if_neg h2, if_pos hd]

theorem mem_catalogAdd :
    ∀ (cat : Catalog) (name : Str) (c0 : Concert) (e : Str × List Concert),
      e ∈ catalogAdd cat name c0 → ∀ c ∈ e.2, (∃ e' ∈ cat, c ∈ e'.2) ∨ c = c0 := by
  intro cat
  induction cat with
  | nil =>
    intro name c0 e he c hc
    rw [catalogAdd] at he
    simp at he
    subst he
    simp at hc
    right
    exact hc
  | cons p rest ih =>
    intro name c0 e he c hc
    obtain ⟨n, cs⟩ := p
    by_cases hn : n = name
    · rw [catalogAdd, if_pos hn] at he
      rcases List.mem_cons.mp he with rfl | he'
      · rcases List.mem_append.mp hc with h1 | h1
        · exact Or.inl ⟨(n, cs), List.mem_cons_self _ _, h1⟩
        · right
          simpa using h1
      · exact Or.inl ⟨e, List.mem_cons_of_mem _ he', hc⟩
    · rw [catalogAdd, if_neg hn] at he
      rcases List.mem_cons.mp he with rfl | he'
      · exact Or.inl ⟨(n, cs), List.mem_cons_self _ _, hc⟩
      · rcases ih name c0 e he' c hc with ⟨e', he'', hc'⟩ | hceq
        · exact Or.inl ⟨e', List.mem_cons_of_mem _ he'', hc'⟩
        · exact Or.inr hceq

theorem processLine_good (acc acc' : Catalog) (l : Str)
    (h : processLine acc l = some acc')
    (hacc : ∀ e ∈ acc, ∀ c ∈ e.2, goodConcert c) :
    ∀ e ∈ acc', ∀ c ∈ e.2, goodConcert c := by
  rw [processLine] at h
  rcases ha : artistSearch l with _ | nm <;> rw [ha] at h
  · injection h with h
    rw [← h]
    exact hacc
  · rcases hd : daySearch l with _ | day <;> rw [hd] at h
    · exact absurd h (by simp)
    rcases hdt : dateSearch l with _ | date <;> rw [hdt] at h
    · exact absurd h (by simp)
    rcases hv : venueSearch l with _ | venue <;> rw [hv] at h
    · exact absurd h (by simp)
    rcases hc : costSearch l with _ | cost <;> rw [hc] at h
    · exact absurd h (by simp)
    have h2 : Option.map (fun c => catalogAdd acc nm c) (formatConcert day date venue cost) =
        some acc' := h
    rcases hf : formatConcert day date venue cost with _ | c0 <;> rw [hf] at h2
    · exact absurd h2 (by simp)
    simp only [Option.map_some'] at h2
    injection h2 with h2
    rw [← h2]
    intro e he c hce
    rcases mem_catalogAdd acc nm c0 e he c hce with ⟨e', he', hc'⟩ | hceq
    · exact hacc e' he' c hc'
    · subst hceq
      obtain ⟨hday3, hdayA⟩ := daySearch_shape l day hd
      obtain ⟨hdl, hdc⟩ := dateSearch_shape l date hdt
      obtain ⟨m, d', y, rest, hsplit, hceq⟩ := formatConcert_inv day date venue cost c hf
      subst hceq
      have hmd : ∀ ch ∈ m, Char.isDigit ch = true := by
        intro ch hch
        have hmem : m ∈ pySplit '-' date := by
          rw [hsplit]; exact List.mem_cons_self _ _
        obtain ⟨hin, hne⟩ := pySplit_chars '-' date m hmem ch hch
        have hdch : isDateChar ch = true := List.all_eq_true.mp hdc ch hin
        rw [isDateChar] at hdch
        rcases Bool.or_eq_true_iff.mp hdch with h1 | h1
        · exact h1
        · exact absurd (by simpa using h1) hne
      refine ⟨hday3, hdayA, List.all_eq_true.mpr (fun ch hch => by simpa using hmd ch hch), ?_⟩
      intro hmne
      exact ⟨(digitsToNat m : Nat), pyInt_digits m hmne
        (List.all_eq_true.mpr (fun ch hch => by simpa using hmd ch hch)), by omega, by omega⟩

theorem concertList_fold_good :
    ∀ (ls : List Str) (acc : Catalog), (∀ e ∈ acc, ∀ c ∈ e.2, goodConcert c) →
      ∀ cat, List.foldlM processLine acc ls = some cat →
        ∀ e ∈ cat, ∀ c ∈ e.2, goodConcert c := by
  intro ls
  induction ls with
  | nil =>
    intro acc hacc cat h
    rw [List.foldlM] at h
    injection h with h
    rw [← h]
    exact hacc
  | cons l ls ih =>
    intro acc hacc cat h
    rw [List.foldlM_cons] at h
    rcases hp : processLine acc l with _ | acc1 <;> rw [hp] at h
    · exact absurd h (by simp)
    · have h' : List.foldlM processLine acc1 ls = some cat := h
      exact ih acc1 (processLine_good acc acc1 l hp hacc) cat h'

/-- C4 counterexample: `badLine` carries the data-cell marker, all five
patterns accept it, and `concertList` emits a concert whose venue,
day-of-month and year fields are all the empty string (the venue and cost
patterns use `*`, and the date token `1---------` splits into one digit and
nine empty components), refuting the claim that only cost may be empty. -/
theorem concertList_empty_fields_cex :
    concertList [badLine] = some [(strL "A", [badC])] ∧
    badC.venue = [] ∧ badC.date = [] ∧ badC.year = [] :=
  ⟨rfl, rfl, rfl, rfl⟩

/-- C4 amended: every concert emitted by the extractor has a weekday of
exactly three ASCII letters (hence non-empty), a month field consisting
solely of digits which, whenever non-empty, is accepted by `int()` and
normalizes into the twelve-entry table (index `(m - 1) % 12 ∈ [0, 11]`,
month value in `[1, 12]`); the venue, cost, day-of-month and year fields
may each be the empty string. -/
theorem concertList_field_guarantees (lines : List Str) (cat : Catalog)
    (h : concertList lines = some cat) :
    ∀ e ∈ cat, ∀ c ∈ e.2, goodConcert c :=
  concertList_fold_good (lines.filter hasTd) [] (by simp) cat h

/-- C4 witness: the guarantees evaluated on the concert extracted from the
well-formed data row. -/
theorem concertList_field_guarantees_witness : goodConcert goodC :=
  concertList_field_guarantees [goodLine] [(strL "A", [goodC])] (by rfl)
    (strL "A", [goodC]) (List.mem_cons_self _ _) goodC (List.mem_cons_self _ _)
